import Mathlib

/-!
Verification of the elder-crates dependency staleness engine.

The repository ships the test suite of its version-range / staleness core
(`src/core/validate.test.ts`) and the editor decoration orchestration
(`src/extension/decorate.ts`), but the core implementation files
(`core/parse.ts`, `core/validate.ts`) are not part of the source tree here.
Definitions for that missing core are therefore modelled from the
specification (marked `Modelled from the spec:`); the decoration
orchestration is embedded from the source.
-/

namespace ElderCrates

/-- Staleness verdict / dependency status, from the source's
`DependencyStatus` union `'latest' | 'patch-behind' | 'minor-behind' |
'major-behind' | 'error'`. -/
inductive DependencyStatus : Type
  | latest
  | patchBehind
  | minorBehind
  | majorBehind
  | error
  deriving DecidableEq

/-- Modelled from the spec: a single prerelease identifier of a semantic
version; numeric identifiers are kept as naturals, alphanumeric ones as
their character list. -/
inductive PreId : Type
  | num (n : Nat)
  | alpha (s : List Char)
  deriving DecidableEq

/-- Modelled from the spec: `ResolvedVersion`, a single valid semantic
version `major.minor.patch[-prerelease]`.  Build metadata is omitted from
the model because the spec declares it ignored for ordering. -/
structure Version : Type where
  major : Nat
  minor : Nat
  patch : Nat
  pre : List PreId
  deriving DecidableEq

/-- Three-way comparison on naturals used throughout the version order. -/
def ncmp (a b : Nat) : Ordering :=
  if a < b then .lt else if b < a then .gt else .eq

theorem ncmp_self (a : Nat) : ncmp a a = .eq := by
  simp [ncmp]

theorem ncmp_swap (a b : Nat) : ncmp a b = (ncmp b a).swap := by
  unfold ncmp
  rcases Nat.lt_trichotomy a b with h | h | h
  · simp [h, Nat.lt_asymm h, Ordering.swap]
  · simp [h, Nat.lt_irrefl, Ordering.swap]
  · simp [h, Nat.lt_asymm h, Ordering.swap]

theorem ncmp_eq_iff (a b : Nat) : ncmp a b = .eq ↔ a = b := by
  unfold ncmp
  rcases Nat.lt_trichotomy a b with h | h | h
  · simp [h, Nat.ne_of_lt h]
  · simp [h, Nat.lt_irrefl]
  · simp [h, Nat.lt_asymm h, (Nat.ne_of_lt h).symm]

theorem ordering_then_swap (a b : Ordering) :
    (a.then b).swap = a.swap.then b.swap := by
  cases a <;> rfl

/-- Lexicographic comparison of character lists by code point, used for
alphanumeric prerelease identifiers. -/
def chunkCmp : List Char → List Char → Ordering
  | [], [] => .eq
  | [], _ :: _ => .lt
  | _ :: _, [] => .gt
  | a :: as, b :: bs => (ncmp a.toNat b.toNat).then (chunkCmp as bs)

theorem chunkCmp_self : ∀ l, chunkCmp l l = .eq
  | [] => rfl
  | c :: cs => by
    simp [chunkCmp, ncmp_self, Ordering.then, chunkCmp_self cs]

theorem chunkCmp_swap : ∀ a b, chunkCmp a b = (chunkCmp b a).swap
  | [], [] => rfl
  | [], _ :: _ => rfl
  | _ :: _, [] => rfl
  | a :: as, b :: bs => by
    simp only [chunkCmp, ordering_then_swap]
    rw [chunkCmp_swap as bs, ncmp_swap a.toNat b.toNat]

/-- Modelled from the spec: semantic-version precedence on single
prerelease identifiers — numeric identifiers sort below alphanumeric
ones, numerics compare numerically, alphanumerics lexically. -/
def preIdCmp : PreId → PreId → Ordering
  | .num a, .num b => ncmp a b
  | .num _, .alpha _ => .lt
  | .alpha _, .num _ => .gt
  | .alpha a, .alpha b => chunkCmp a b

theorem preIdCmp_self : ∀ x, preIdCmp x x = .eq
  | .num _ => ncmp_self _
  | .alpha s => chunkCmp_self s

theorem preIdCmp_swap : ∀ a b, preIdCmp a b = (preIdCmp b a).swap
  | .num a, .num b => ncmp_swap a b
  | .num _, .alpha _ => rfl
  | .alpha _, .num _ => rfl
  | .alpha a, .alpha b => chunkCmp_swap a b

/-- Modelled from the spec: identifier-by-identifier comparison of two
nonempty prerelease sequences; a strict prefix sorts lower. -/
def preListCmp : List PreId → List PreId → Ordering
  | [], [] => .eq
  | [], _ :: _ => .lt
  | _ :: _, [] => .gt
  | a :: as, b :: bs => (preIdCmp a b).then (preListCmp as bs)

theorem preListCmp_self : ∀ l, preListCmp l l = .eq
  | [] => rfl
  | x :: xs => by
    simp [preListCmp, preIdCmp_self, Ordering.then, preListCmp_self xs]

theorem preListCmp_swap : ∀ a b, preListCmp a b = (preListCmp b a).swap
  | [], [] => rfl
  | [], _ :: _ => rfl
  | _ :: _, [] => rfl
  | a :: as, b :: bs => by
    simp only [preListCmp, ordering_then_swap]
    rw [preListCmp_swap as bs, preIdCmp_swap a b]

/-- Modelled from the spec: prerelease comparison at the version level —
an empty prerelease list denotes a release, which sorts above every
prerelease of the same release tuple. -/
def preCmp (a b : List PreId) : Ordering :=
  match a, b with
  | [], [] => .eq
  | [], _ :: _ => .gt
  | _ :: _, [] => .lt
  | _ :: _, _ :: _ => preListCmp a b

theorem preCmp_self : ∀ l, preCmp l l = .eq
  | [] => rfl
  | x :: xs => preListCmp_self (x :: xs)

theorem preCmp_swap : ∀ a b, preCmp a b = (preCmp b a).swap
  | [], [] => rfl
  | [], _ :: _ => rfl
  | _ :: _, [] => rfl
  | a :: as, b :: bs => preListCmp_swap (a :: as) (b :: bs)

/-- Modelled from the spec: standard semantic-version precedence —
compare major, then minor, then patch, then prerelease (build metadata
ignored). -/
def Version.cmp (a b : Version) : Ordering :=
  (ncmp a.major b.major).then
    ((ncmp a.minor b.minor).then
      ((ncmp a.patch b.patch).then (preCmp a.pre b.pre)))

theorem Version.cmp_self (v : Version) : v.cmp v = .eq := by
  simp [Version.cmp, ncmp_self, Ordering.then, preCmp_self]

theorem Version.cmp_swap (a b : Version) : a.cmp b = (b.cmp a).swap := by
  simp only [Version.cmp, ordering_then_swap]
  rw [ncmp_swap a.major b.major, ncmp_swap a.minor b.minor,
    ncmp_swap a.patch b.patch, preCmp_swap a.pre b.pre]

/-- Semantic-version order: `a` precedes or equals `b`. -/
def Version.le (a b : Version) : Prop := a.cmp b ≠ .gt

instance (a b : Version) : Decidable (a.le b) := by
  unfold Version.le
  infer_instance

/-- Modelled from the spec: `compareVersionDiff(current, target)` — if
`current ≥ target` the verdict is `latest` (never negative staleness);
otherwise a differing major gives `major-behind`, else a differing minor
gives `minor-behind`, else the difference is in the patch component or in
prerelease status and gives `patch-behind`. -/
def compareVersionDiff (current target : Version) : DependencyStatus :=
  if current.cmp target = .lt then
    if current.major ≠ target.major then .majorBehind
    else if current.minor ≠ target.minor then .minorBehind
    else .patchBehind
  else .latest

/-- Modelled from the spec: comparator operator of a version requirement —
caret (also the bare default), tilde, the comparison operators, exact
equality, and the full wildcard. -/
inductive CompOp : Type
  | caret
  | tilde
  | gt
  | ge
  | lt
  | le
  | eq
  | star
  deriving DecidableEq

/-- Modelled from the spec: a single comparator of a requirement's
comparator set.  `minor`/`patch` are `none` when the requirement text gave
fewer than three numeric components (partial versions, wildcards). -/
structure Comparator : Type where
  op : CompOp
  major : Nat
  minor : Option Nat
  patch : Option Nat
  pre : List PreId
  deriving DecidableEq

/-- Modelled from the spec: `VersionRequirement`, a structured comparator
set with AND semantics across the comma-separated comparators. -/
structure VersionRange : Type where
  comparators : List Comparator
  deriving DecidableEq

/-- The version literally written as a comparator's bound, with omitted
components read as zero. -/
def Comparator.floor (c : Comparator) : Version :=
  ⟨c.major, c.minor.getD 0, c.patch.getD 0, c.pre⟩

/-- Modelled from the spec: exclusive upper bound of a caret comparator —
next major, or next leading nonzero component when the major (or
major.minor) component is zero. -/
def caretUpper (c : Comparator) : Version :=
  if c.major > 0 then ⟨c.major + 1, 0, 0, []⟩
  else
    match c.minor with
    | none => ⟨1, 0, 0, []⟩
    | some mi =>
      if mi > 0 then ⟨0, mi + 1, 0, []⟩
      else
        match c.patch with
        | none => ⟨0, 1, 0, []⟩
        | some pa => ⟨0, 0, pa + 1, []⟩

/-- Modelled from the spec: exclusive upper bound of a tilde comparator —
locks major.minor when a minor was given, otherwise locks major only. -/
def tildeUpper (c : Comparator) : Version :=
  match c.minor with
  | none => ⟨c.major + 1, 0, 0, []⟩
  | some mi => ⟨c.major, mi + 1, 0, []⟩

/-- Modelled from the spec: exclusive upper bound used by an exact
comparator over a partial version. -/
def eqUpper (c : Comparator) : Version :=
  match c.minor with
  | none => ⟨c.major + 1, 0, 0, []⟩
  | some mi =>
    match c.patch with
    | none => ⟨c.major, mi + 1, 0, []⟩
    | some pa => ⟨c.major, mi, pa, []⟩

/-- Modelled from the spec: membership of a version in one comparator. -/
def Comparator.test (c : Comparator) (v : Version) : Bool :=
  match c.op with
  | .caret => !(v.cmp c.floor == .lt) && (v.cmp (caretUpper c) == .lt)
  | .tilde => !(v.cmp c.floor == .lt) && (v.cmp (tildeUpper c) == .lt)
  | .ge => !(v.cmp c.floor == .lt)
  | .gt => v.cmp c.floor == .gt
  | .le => !(v.cmp c.floor == .gt)
  | .lt => v.cmp c.floor == .lt
  | .eq =>
    match c.patch with
    | some _ => v.cmp c.floor == .eq
    | none => !(v.cmp c.floor == .lt) && (v.cmp (eqUpper c) == .lt)
  | .star => !(v.cmp c.floor == .lt)

/-- Modelled from the spec: `test(version)` evaluates membership against
the full comparator conjunction (AND semantics). -/
def VersionRange.test (r : VersionRange) (v : Version) : Bool :=
  r.comparators.all (fun c => c.test v)

/-- Whether a comparator operator contributes a lower bound to the
requirement's floor. -/
def hasLowerBound : CompOp → Bool
  | .lt => false
  | .le => false
  | _ => true

/-- Modelled from the spec: `minSatisfying` / `getMinVersionFromRange`
returns the lowest version literally expressible by the requirement's
lower bound, computed from syntax alone; `none` when the requirement has
no derivable floor (only upper bounds). -/
def getMinVersionFromRange (r : VersionRange) : Option Version :=
  (r.comparators.find? (fun c => hasLowerBound c.op)).map Comparator.floor

/-- Modelled from the spec: classification of a requirement against a
single chosen target version. -/
def statusAgainst (r : VersionRange) (target : Version) : DependencyStatus :=
  match getMinVersionFromRange r with
  | none => .error
  | some current => compareVersionDiff current target

/-- Modelled from the spec: `computeStatus(requirement, latestStable,
latest)` — error when both resolved versions are undefined, otherwise
classify against `latestStable` when defined, falling back to `latest`
only when no stable version exists. -/
def computeStatus (r : VersionRange) (latestStable latest : Option Version) :
    DependencyStatus :=
  match latestStable, latest with
  | none, none => .error
  | some stable, _ => statusAgainst r stable
  | none, some l => statusAgainst r l

/-- Decimal digit character for a value below ten. -/
def digitChar : Nat → Char
  | 0 => '0'
  | 1 => '1'
  | 2 => '2'
  | 3 => '3'
  | 4 => '4'
  | 5 => '5'
  | 6 => '6'
  | 7 => '7'
  | 8 => '8'
  | _ => '9'

/-- Numeric value of a decimal digit character. -/
def digitVal (c : Char) : Nat := c.toNat - 48

/-- Decimal rendering worker; the fuel bounds the digit count so the
recursion is structural and reduces in the kernel. -/
def natToCharsAux : Nat → Nat → List Char
  | 0, _ => []
  | fuel + 1, n =>
    if n < 10 then [digitChar n]
    else natToCharsAux fuel (n / 10) ++ [digitChar (n % 10)]

/-- Decimal rendering of a natural as characters. -/
def natToChars (n : Nat) : List Char := natToCharsAux (n + 1) n

/-- Value of the decimal digit string accumulated left to right. -/
def parseDigits (cs : List Char) : Nat :=
  cs.foldl (fun a c => a * 10 + digitVal c) 0

/-- Splits a character list on a separator; always returns at least one
chunk. -/
def splitOnChar (sep : Char) : List Char → List (List Char)
  | [] => [[]]
  | c :: cs =>
    if c = sep then [] :: splitOnChar sep cs
    else
      match splitOnChar sep cs with
      | [] => [[c]]
      | h :: t => (c :: h) :: t

/-- Joins chunks with a separator character, inverse of `splitOnChar`. -/
def joinSep (sep : Char) : List (List Char) → List Char
  | [] => []
  | [p] => p
  | p :: ps => p ++ sep :: joinSep sep ps

/-- Characters allowed in an alphanumeric prerelease identifier. -/
def isIdentChar (c : Char) : Bool := c.isDigit || c.isAlpha || c == '-'

/-- Validity of a prerelease identifier in the model: alphanumeric
identifiers are nonempty, use the identifier alphabet, and are not
all-digits (those are numeric identifiers). -/
def validPreId : PreId → Bool
  | .num _ => true
  | .alpha s => !s.isEmpty && s.all isIdentChar && !s.all Char.isDigit

/-- Modelled from the spec: parse one dot-separated prerelease chunk —
an all-digit chunk is numeric, other identifier chunks alphanumeric. -/
def parsePreChunk (cs : List Char) : Option PreId :=
  if cs = [] then none
  else if cs.all isIdentChar then
    if cs.all Char.isDigit then some (.num (parseDigits cs))
    else some (.alpha cs)
  else none

/-- Option-valued traversal of a list, failing when any element fails. -/
def mapMOpt {α β : Type} (f : α → Option β) : List α → Option (List β)
  | [] => some []
  | x :: xs =>
    match f x, mapMOpt f xs with
    | some y, some ys => some (y :: ys)
    | _, _ => none

/-- Modelled from the spec: parse the prerelease part after the hyphen. -/
def parsePrerelease (cs : List Char) : Option (List PreId) :=
  mapMOpt parsePreChunk (splitOnChar '.' cs)

/-- Drops leading spaces. -/
def dropSpaces (cs : List Char) : List Char := cs.dropWhile (fun c => c = ' ')

/-- Drops leading and trailing spaces. -/
def trimSpaces (cs : List Char) : List Char :=
  ((dropSpaces cs).reverse.dropWhile (fun c => c = ' ')).reverse

/-- Takes the leading run of decimal digits as a number; fails when the
input does not start with a digit. -/
def parseNatChunk (cs : List Char) : Option (Nat × List Char) :=
  let ds := cs.takeWhile Char.isDigit
  if ds = [] then none
  else some (parseDigits ds, cs.dropWhile Char.isDigit)

/-- Modelled from the spec: recognise an explicit comparator operator
prefix; a bare version uses caret semantics. -/
def parseOp (cs : List Char) : CompOp × List Char :=
  match cs with
  | [] => (.caret, [])
  | c :: rest =>
    if c = '>' then
      match rest with
      | '=' :: r => (.ge, r)
      | _ => (.gt, rest)
    else if c = '<' then
      match rest with
      | '=' :: r => (.le, r)
      | _ => (.lt, rest)
    else if c = '=' then (.eq, rest)
    else if c = '^' then (.caret, rest)
    else if c = '~' then (.tilde, rest)
    else (.caret, cs)

/-- Modelled from the spec: parse the patch component and optional
prerelease tag of one comparator, a trailing `.*` wildcard standing for
an omitted patch component. -/
def parsePatchPart (op : CompOp) (ma mi : Nat) (r4 : List Char) :
    Option Comparator :=
  if r4 = ['*'] then some ⟨op, ma, some mi, none, []⟩
  else
    match parseNatChunk r4 with
    | none => none
    | some (pa, r5) =>
      match r5 with
      | [] => some ⟨op, ma, some mi, some pa, []⟩
      | c3 :: r6 =>
        if c3 = '-' then
          (parsePrerelease r6).map (fun pre => ⟨op, ma, some mi, some pa, pre⟩)
        else none

/-- Modelled from the spec: parse the minor component onwards of one
comparator, a trailing `.*` wildcard standing for an omitted minor
component. -/
def parseMinorPart (op : CompOp) (ma : Nat) (r2 : List Char) :
    Option Comparator :=
  if r2 = ['*'] then some ⟨op, ma, none, none, []⟩
  else
    match parseNatChunk r2 with
    | none => none
    | some (mi, r3) =>
      match r3 with
      | [] => some ⟨op, ma, some mi, none, []⟩
      | c2 :: r4 => if c2 = '.' then parsePatchPart op ma mi r4 else none

/-- Modelled from the spec: parse the version part of one comparator —
up to three numeric components, trailing `.*` wildcards treated as the
equivalent partial version, and an optional prerelease tag after a
hyphen on a full version. -/
def parseVersionPart (op : CompOp) (cs : List Char) : Option Comparator :=
  match parseNatChunk cs with
  | none => none
  | some (ma, r1) =>
    match r1 with
    | [] => some ⟨op, ma, none, none, []⟩
    | c1 :: r2 => if c1 = '.' then parseMinorPart op ma r2 else none

/-- Modelled from the spec: parse one comma-separated comparator. -/
def parseComparator (cs0 : List Char) : Option Comparator :=
  let cs := trimSpaces cs0
  if cs = ['*'] then some ⟨.star, 0, none, none, []⟩
  else
    let pr := parseOp cs
    parseVersionPart pr.1 (dropSpaces pr.2)

/-- Modelled from the spec: `parse(requirementText)` over characters —
split the comma-separated comparator conjunction and parse each part. -/
def parseRangeChars (cs : List Char) : Option VersionRange :=
  match mapMOpt parseComparator (splitOnChar ',' cs) with
  | none => none
  | some comps => some ⟨comps⟩

/-- Modelled from the spec: `parseVersionRange(requirementText)`. -/
def parseVersionRange (s : String) : Option VersionRange :=
  parseRangeChars s.data

/-- Decimal rendering of a prerelease identifier. -/
def renderPreId : PreId → List Char
  | .num n => natToChars n
  | .alpha s => s

/-- Rendering of a prerelease sequence, identifiers joined with dots. -/
def renderPre (ids : List PreId) : List Char :=
  joinSep '.' (ids.map renderPreId)

/-- Canonical rendering of a version as a bare requirement string. -/
def renderVersion (v : Version) : List Char :=
  natToChars v.major ++ ('.' :: (natToChars v.minor ++ ('.' :: (natToChars v.patch
    ++ (if v.pre = [] then [] else '-' :: renderPre v.pre)))))

theorem digitVal_digitChar {d : Nat} (h : d < 10) : digitVal (digitChar d) = d := by
  interval_cases d <;> decide

theorem isDigit_digitChar (d : Nat) : (digitChar d).isDigit = true := by
  unfold digitChar
  split <;> decide

theorem natToCharsAux_ne_nil : ∀ fuel n, n < fuel → natToCharsAux fuel n ≠ [] := by
  intro fuel
  cases fuel with
  | zero => intro n h; omega
  | succ fuel =>
    intro n _
    by_cases h10 : n < 10
    · simp [natToCharsAux, h10]
    · simp [natToCharsAux, h10]

theorem natToCharsAux_digits :
    ∀ fuel n, n < fuel → ∀ c ∈ natToCharsAux fuel n, c.isDigit = true := by
  intro fuel
  induction fuel with
  | zero => intro n h; omega
  | succ fuel ih =>
    intro n hn c hc
    by_cases h10 : n < 10
    · simp [natToCharsAux, h10] at hc
      subst hc
      exact isDigit_digitChar n
    · simp [natToCharsAux, h10] at hc
      rcases hc with hc | hc
      · have hdiv : n / 10 < n := Nat.div_lt_self (by omega) (by decide)
        exact ih (n / 10) (by omega) c hc
      · subst hc
        exact isDigit_digitChar (n % 10)

theorem foldl_natToCharsAux :
    ∀ fuel n, n < fuel → ∃ m, 0 < m ∧ ∀ acc,
      (natToCharsAux fuel n).foldl (fun a c => a * 10 + digitVal c) acc
        = acc * m + n := by
  intro fuel
  induction fuel with
  | zero => intro n h; omega
  | succ fuel ih =>
    intro n hn
    by_cases h10 : n < 10
    · refine ⟨10, by decide, fun acc => ?_⟩
      simp [natToCharsAux, h10, digitVal_digitChar h10]
    · have hdiv : n / 10 < n := Nat.div_lt_self (by omega) (by decide)
      obtain ⟨m, hm, hfold⟩ := ih (n / 10) (by omega)
      refine ⟨m * 10, by positivity, fun acc => ?_⟩
      simp only [natToCharsAux, if_neg h10, List.foldl_append, hfold]
      simp only [List.foldl]
      rw [digitVal_digitChar (Nat.mod_lt n (by decide))]
      calc (acc * m + n / 10) * 10 + n % 10
          = acc * (m * 10) + (10 * (n / 10) + n % 10) := by ring
        _ = acc * (m * 10) + n := by rw [Nat.div_add_mod]

theorem natToChars_ne_nil (n : Nat) : natToChars n ≠ [] :=
  natToCharsAux_ne_nil (n + 1) n (Nat.lt_succ_self n)

theorem natToChars_digits (n : Nat) : ∀ c ∈ natToChars n, c.isDigit = true :=
  natToCharsAux_digits (n + 1) n (Nat.lt_succ_self n)

theorem parseDigits_natToChars (n : Nat) : parseDigits (natToChars n) = n := by
  obtain ⟨m, _, hfold⟩ := foldl_natToCharsAux (n + 1) n (Nat.lt_succ_self n)
  unfold parseDigits natToChars
  rw [hfold 0]
  simp

theorem takeWhile_append_not {α : Type} (p : α → Bool) :
    ∀ (a : List α), (∀ x ∈ a, p x = true) → ∀ c, p c = false → ∀ b,
      (a ++ c :: b).takeWhile p = a := by
  intro a
  induction a with
  | nil => intro _ c hc b; simp [List.takeWhile, hc]
  | cons x xs ih =>
    intro h c hc b
    have hx : p x = true := h x (by simp)
    simp only [List.cons_append, List.takeWhile, hx, List.append_eq]
    rw [ih (fun y hy => h y (List.mem_cons_of_mem x hy)) c hc b]

theorem dropWhile_append_not {α : Type} (p : α → Bool) :
    ∀ (a : List α), (∀ x ∈ a, p x = true) → ∀ c, p c = false → ∀ b,
      (a ++ c :: b).dropWhile p = c :: b := by
  intro a
  induction a with
  | nil => intro _ c hc b; simp [List.dropWhile, hc]
  | cons x xs ih =>
    intro h c hc b
    have hx : p x = true := h x (by simp)
    simp only [List.cons_append, List.dropWhile, hx, List.append_eq]
    exact ih (fun y hy => h y (List.mem_cons_of_mem x hy)) c hc b

theorem takeWhile_all_true {α : Type} (p : α → Bool) :
    ∀ (a : List α), (∀ x ∈ a, p x = true) → a.takeWhile p = a := by
  intro a
  induction a with
  | nil => intro _; rfl
  | cons x xs ih =>
    intro h
    have hx : p x = true := h x (by simp)
    simp only [List.takeWhile, hx]
    rw [ih (fun y hy => h y (List.mem_cons_of_mem x hy))]

theorem dropWhile_all_true {α : Type} (p : α → Bool) :
    ∀ (a : List α), (∀ x ∈ a, p x = true) → a.dropWhile p = [] := by
  intro a
  induction a with
  | nil => intro _; rfl
  | cons x xs ih =>
    intro h
    have hx : p x = true := h x (by simp)
    simp only [List.dropWhile, hx]
    exact ih fun y hy => h y (List.mem_cons_of_mem x hy)

theorem dropWhile_all_false {α : Type} (p : α → Bool) (a : List α)
    (h : ∀ x ∈ a, p x = false) : a.dropWhile p = a := by
  cases a with
  | nil => rfl
  | cons x xs => simp [List.dropWhile, h x (by simp)]

theorem parseNatChunk_natToChars (n : Nat) :
    parseNatChunk (natToChars n) = some (n, []) := by
  unfold parseNatChunk
  rw [takeWhile_all_true Char.isDigit (natToChars n) (natToChars_digits n),
    dropWhile_all_true Char.isDigit (natToChars n) (natToChars_digits n),
    if_neg (natToChars_ne_nil n), parseDigits_natToChars]

theorem parseNatChunk_append (n : Nat) (c : Char) (hc : c.isDigit = false)
    (b : List Char) :
    parseNatChunk (natToChars n ++ c :: b) = some (n, c :: b) := by
  unfold parseNatChunk
  rw [takeWhile_append_not Char.isDigit (natToChars n) (natToChars_digits n) c hc b,
    dropWhile_append_not Char.isDigit (natToChars n) (natToChars_digits n) c hc b,
    if_neg (natToChars_ne_nil n), parseDigits_natToChars]

theorem splitOnChar_ne_nil (sep : Char) (cs : List Char) :
    splitOnChar sep cs ≠ [] := by
  cases cs with
  | nil => simp [splitOnChar]
  | cons c cs =>
    simp only [splitOnChar]
    by_cases h : c = sep
    · simp [h]
    · simp only [if_neg h]
      cases splitOnChar sep cs <;> simp

theorem splitOnChar_no_sep (sep : Char) :
    ∀ cs, (∀ c ∈ cs, c ≠ sep) → splitOnChar sep cs = [cs] := by
  intro cs
  induction cs with
  | nil => intro _; rfl
  | cons c cs ih =>
    intro h
    have hc : c ≠ sep := h c (by simp)
    simp only [splitOnChar, if_neg hc]
    rw [ih fun x hx => h x (List.mem_cons_of_mem c hx)]

theorem splitOnChar_append_sep (sep : Char) (rest : List Char) :
    ∀ p, (∀ c ∈ p, c ≠ sep) →
      splitOnChar sep (p ++ sep :: rest) = p :: splitOnChar sep rest := by
  intro p
  induction p with
  | nil => intro _; simp [splitOnChar]
  | cons c p ih =>
    intro h
    have hc : c ≠ sep := h c (by simp)
    simp only [List.cons_append, splitOnChar, if_neg hc, List.append_eq]
    rw [ih fun x hx => h x (List.mem_cons_of_mem c hx)]

theorem splitOnChar_joinSep (sep : Char) :
    ∀ parts, parts ≠ [] → (∀ p ∈ parts, ∀ c ∈ p, c ≠ sep) →
      splitOnChar sep (joinSep sep parts) = parts
  | [], h, _ => absurd rfl h
  | [p], _, hs => by
    simp only [joinSep]
    exact splitOnChar_no_sep sep p (hs p (by simp))
  | p :: q :: ps, _, hs => by
    show splitOnChar sep (p ++ sep :: joinSep sep (q :: ps)) = p :: q :: ps
    rw [splitOnChar_append_sep sep _ p (hs p (by simp))]
    rw [splitOnChar_joinSep sep (q :: ps) (by simp)
      fun x hx => hs x (List.mem_cons_of_mem p hx)]

theorem mapMOpt_map {α β : Type} (f : α → Option β) (g : β → α) :
    ∀ l, (∀ x ∈ l, f (g x) = some x) → mapMOpt f (l.map g) = some l := by
  intro l
  induction l with
  | nil => intro _; rfl
  | cons x xs ih =>
    intro h
    simp only [List.map, mapMOpt, h x (by simp),
      ih fun y hy => h y (List.mem_cons_of_mem x hy)]

theorem mem_joinSep {sep : Char} :
    ∀ parts (c : Char), c ∈ joinSep sep parts → c = sep ∨ ∃ p ∈ parts, c ∈ p
  | [], c, h => by simp [joinSep] at h
  | [p], c, h => by
    simp only [joinSep] at h
    exact Or.inr ⟨p, by simp, h⟩
  | p :: q :: ps, c, h => by
    rw [show joinSep sep (p :: q :: ps) = p ++ sep :: joinSep sep (q :: ps) from rfl] at h
    rcases List.mem_append.mp h with h | h
    · exact Or.inr ⟨p, by simp, h⟩
    · rcases List.mem_cons.mp h with h | h
      · exact Or.inl h
      · rcases mem_joinSep (q :: ps) c h with h | ⟨r, hr, hcr⟩
        · exact Or.inl h
        · exact Or.inr ⟨r, List.mem_cons_of_mem p hr, hcr⟩

theorem dropSpaces_eq_self (cs : List Char) (h : ∀ c ∈ cs, c ≠ ' ') :
    dropSpaces cs = cs := by
  unfold dropSpaces
  apply dropWhile_all_false
  intro x hx
  simp [h x hx]

theorem trimSpaces_eq_self (cs : List Char) (h : ∀ c ∈ cs, c ≠ ' ') :
    trimSpaces cs = cs := by
  unfold trimSpaces
  rw [dropSpaces_eq_self cs h]
  rw [dropWhile_all_false _ cs.reverse ?_]
  · exact List.reverse_reverse cs
  · intro x hx
    rw [List.mem_reverse] at hx
    simp [h x hx]

/-- Character alphabet of a rendered bare requirement: digits, letters,
hyphen and dot. -/
def goodChar (c : Char) : Bool := c.isDigit || c.isAlpha || c == '-' || c == '.'

theorem goodChar_digit (c : Char) (h : c.isDigit = true) : goodChar c = true := by
  simp [goodChar, h]

theorem goodChar_of_ident (c : Char) (h : isIdentChar c = true) :
    goodChar c = true := by
  simp only [isIdentChar, Bool.or_eq_true] at h
  simp only [goodChar, Bool.or_eq_true]
  tauto

theorem good_not_special (c : Char) (h : goodChar c = true) :
    c ≠ ',' ∧ c ≠ ' ' ∧ c ≠ '*' ∧ c ≠ '>' ∧ c ≠ '<' ∧ c ≠ '=' ∧ c ≠ '^' ∧ c ≠ '~' := by
  refine ⟨?_, ?_, ?_, ?_, ?_, ?_, ?_, ?_⟩ <;> (rintro rfl; revert h; decide)

theorem ident_ne_dot (c : Char) (h : isIdentChar c = true) : c ≠ '.' := by
  rintro rfl
  revert h
  decide

theorem renderPreId_ident (id : PreId) (h : validPreId id = true) :
    ∀ c ∈ renderPreId id, isIdentChar c = true := by
  cases id with
  | num n =>
    intro c hc
    simp [isIdentChar, natToChars_digits n c hc]
  | alpha s =>
    unfold validPreId at h
    simp only [Bool.and_eq_true] at h
    intro c hc
    exact List.all_eq_true.mp h.1.2 c hc

theorem parsePreChunk_renderPreId (id : PreId) (h : validPreId id = true) :
    parsePreChunk (renderPreId id) = some id := by
  cases id with
  | num n =>
    have hdig : (natToChars n).all Char.isDigit = true :=
      List.all_eq_true.mpr (natToChars_digits n)
    have hident : (natToChars n).all isIdentChar = true := by
      rw [List.all_eq_true]
      intro c hc
      simp [isIdentChar, natToChars_digits n c hc]
    unfold parsePreChunk renderPreId
    rw [if_neg (natToChars_ne_nil n), if_pos hident, if_pos hdig,
      parseDigits_natToChars]
  | alpha s =>
    unfold validPreId at h
    simp only [Bool.and_eq_true, Bool.not_eq_true'] at h
    obtain ⟨⟨hne, hident⟩, hnotdig⟩ := h
    have hne' : s ≠ [] := by
      cases s
      · simp at hne
      · simp
    unfold parsePreChunk renderPreId
    rw [if_neg hne', if_pos hident, if_neg]
    simp [hnotdig]

theorem parsePrerelease_renderPre (pre : List PreId) (hne : pre ≠ [])
    (hv : ∀ id ∈ pre, validPreId id = true) :
    parsePrerelease (renderPre pre) = some pre := by
  have hclean : ∀ p ∈ pre.map renderPreId, ∀ c ∈ p, c ≠ '.' := by
    intro p hp c hc
    rcases List.mem_map.mp hp with ⟨id, hid, rfl⟩
    exact ident_ne_dot c (renderPreId_ident id (hv id hid) c hc)
  have hmapne : pre.map renderPreId ≠ [] := by
    cases pre
    · exact absurd rfl hne
    · simp
  unfold parsePrerelease renderPre
  rw [splitOnChar_joinSep '.' (pre.map renderPreId) hmapne hclean]
  exact mapMOpt_map parsePreChunk renderPreId pre
    fun id hid => parsePreChunk_renderPreId id (hv id hid)

theorem renderPre_good (pre : List PreId) (hv : ∀ id ∈ pre, validPreId id = true) :
    ∀ c ∈ renderPre pre, goodChar c = true := by
  intro c hc
  unfold renderPre at hc
  rcases mem_joinSep (pre.map renderPreId) c hc with rfl | ⟨p, hp, hcp⟩
  · decide
  · rcases List.mem_map.mp hp with ⟨id, hid, rfl⟩
    exact goodChar_of_ident c (renderPreId_ident id (hv id hid) c hcp)

theorem renderVersion_good (v : Version) (hv : ∀ id ∈ v.pre, validPreId id = true) :
    ∀ c ∈ renderVersion v, goodChar c = true := by
  intro c hc
  unfold renderVersion at hc
  by_cases hpre : v.pre = []
  · simp only [hpre, if_pos, List.append_nil, List.mem_append, List.mem_cons] at hc
    rcases hc with hc | rfl | hc | rfl | hc
    · exact goodChar_digit c (natToChars_digits v.major c hc)
    · decide
    · exact goodChar_digit c (natToChars_digits v.minor c hc)
    · decide
    · exact goodChar_digit c (natToChars_digits v.patch c hc)
  · simp only [if_neg hpre, List.mem_append, List.mem_cons] at hc
    rcases hc with hc | rfl | hc | rfl | hc | rfl | hc
    · exact goodChar_digit c (natToChars_digits v.major c hc)
    · decide
    · exact goodChar_digit c (natToChars_digits v.minor c hc)
    · decide
    · exact goodChar_digit c (natToChars_digits v.patch c hc)
    · decide
    · exact renderPre_good v.pre hv c hc

theorem digits_append_ne_star (l : List Char) (hd : ∀ c ∈ l, c.isDigit = true)
    (hne : l ≠ []) (rest : List Char) : l ++ rest ≠ ['*'] := by
  cases l with
  | nil => exact absurd rfl hne
  | cons c t =>
    intro he
    simp only [List.cons_append] at he
    have hc : c = '*' := by injection he
    subst hc
    exact absurd (hd '*' (by simp)) (by decide)

theorem natToChars_ne_star (n : Nat) : natToChars n ≠ ['*'] := by
  have h := digits_append_ne_star (natToChars n) (natToChars_digits n)
    (natToChars_ne_nil n) []
  simpa using h

theorem parsePatchPart_render_nopre (op : CompOp) (ma mi pa : Nat) :
    parsePatchPart op ma mi (natToChars pa) = some ⟨op, ma, some mi, some pa, []⟩ := by
  unfold parsePatchPart
  rw [if_neg (natToChars_ne_star pa), parseNatChunk_natToChars]

theorem parsePatchPart_render_pre (op : CompOp) (ma mi pa : Nat) (pre : List PreId)
    (hpre : parsePrerelease (renderPre pre) = some pre) :
    parsePatchPart op ma mi (natToChars pa ++ '-' :: renderPre pre)
      = some ⟨op, ma, some mi, some pa, pre⟩ := by
  unfold parsePatchPart
  rw [if_neg (digits_append_ne_star _ (natToChars_digits pa) (natToChars_ne_nil pa) _),
    parseNatChunk_append pa '-' (by decide)]
  simp [hpre]

theorem parseMinorPart_render (op : CompOp) (ma mi : Nat) (r4 : List Char) :
    parseMinorPart op ma (natToChars mi ++ '.' :: r4) = parsePatchPart op ma mi r4 := by
  unfold parseMinorPart
  rw [if_neg (digits_append_ne_star _ (natToChars_digits mi) (natToChars_ne_nil mi) _),
    parseNatChunk_append mi '.' (by decide)]
  simp

theorem parseVersionPart_render (op : CompOp) (ma : Nat) (rest : List Char) :
    parseVersionPart op (natToChars ma ++ '.' :: rest) = parseMinorPart op ma rest := by
  unfold parseVersionPart
  rw [parseNatChunk_append ma '.' (by decide)]
  simp

theorem parseVersionPart_renderVersion (v : Version)
    (hv : ∀ id ∈ v.pre, validPreId id = true) :
    parseVersionPart .caret (renderVersion v)
      = some ⟨.caret, v.major, some v.minor, some v.patch, v.pre⟩ := by
  unfold renderVersion
  rw [parseVersionPart_render, parseMinorPart_render]
  by_cases h : v.pre = []
  · rw [if_pos h, List.append_nil, parsePatchPart_render_nopre, h]
  · rw [if_neg h,
      parsePatchPart_render_pre _ _ _ _ v.pre (parsePrerelease_renderPre v.pre h hv)]

theorem parseOp_good (cs : List Char) (hne : cs ≠ [])
    (hgood : ∀ c ∈ cs, goodChar c = true) : parseOp cs = (.caret, cs) := by
  cases cs with
  | nil => exact absurd rfl hne
  | cons c rest =>
    obtain ⟨_, _, _, h1, h2, h3, h4, h5⟩ := good_not_special c (hgood c (by simp))
    simp [parseOp, h1, h2, h3, h4, h5]

theorem renderVersion_ne_nil (v : Version) : renderVersion v ≠ [] := by
  unfold renderVersion
  exact List.append_ne_nil_of_left_ne_nil (natToChars_ne_nil v.major) _

theorem parseComparator_renderVersion (v : Version)
    (hv : ∀ id ∈ v.pre, validPreId id = true) :
    parseComparator (renderVersion v)
      = some ⟨.caret, v.major, some v.minor, some v.patch, v.pre⟩ := by
  have hgood := renderVersion_good v hv
  have hstar : renderVersion v ≠ ['*'] := by
    intro he
    have hm : '*' ∈ renderVersion v := by rw [he]; simp
    exact absurd (hgood '*' hm) (by decide)
  unfold parseComparator
  rw [trimSpaces_eq_self _ fun c hc => (good_not_special c (hgood c hc)).2.1]
  rw [if_neg hstar]
  rw [parseOp_good _ (renderVersion_ne_nil v) hgood]
  show parseVersionPart CompOp.caret (dropSpaces (renderVersion v)) = _
  rw [dropSpaces_eq_self _ fun c hc => (good_not_special c (hgood c hc)).2.1]
  exact parseVersionPart_renderVersion v hv

theorem parseRangeChars_renderVersion (v : Version)
    (hv : ∀ id ∈ v.pre, validPreId id = true) :
    parseRangeChars (renderVersion v)
      = some ⟨[⟨.caret, v.major, some v.minor, some v.patch, v.pre⟩]⟩ := by
  unfold parseRangeChars
  rw [splitOnChar_no_sep ',' (renderVersion v)
    fun c hc => (good_not_special c (renderVersion_good v hv c hc)).1]
  simp [mapMOpt, parseComparator_renderVersion v hv]

theorem compareVersionDiff_ne_error (c t : Version) :
    compareVersionDiff c t ≠ .error := by
  unfold compareVersionDiff
  by_cases h1 : c.cmp t = .lt
  · rw [if_pos h1]
    by_cases h2 : c.major ≠ t.major
    · simp [h2]
    · by_cases h3 : c.minor ≠ t.minor <;> simp [h2, h3]
  · simp [h1]

/-- C1: for every requirement and all resolved versions, `computeStatus`
with a defined `latestStable` classifies against `latestStable` and
ignores `latest`; `latest` is the target only when no stable version
exists; in particular requirement `1.0.0` with `latestStable = 1.2.0` and
`latest = 2.0.0-beta` yields `minor-behind`. -/
theorem computeStatus_prefers_latestStable :
    (∀ (r : VersionRange) (stable l l' : Version),
      computeStatus r (some stable) (some l) = computeStatus r (some stable) (some l')
        ∧ computeStatus r (some stable) (some l) = statusAgainst r stable
        ∧ computeStatus r (some stable) none = statusAgainst r stable)
    ∧ (∀ (r : VersionRange) (l : Version),
        computeStatus r none (some l) = statusAgainst r l)
    ∧ (parseVersionRange "1.0.0").map
        (fun r => computeStatus r (some ⟨1, 2, 0, []⟩)
          (some ⟨2, 0, 0, [.alpha ['b', 'e', 't', 'a']]⟩)) = some .minorBehind := by
  refine ⟨fun r stable l l' => ⟨rfl, rfl, rfl⟩, fun r l => rfl, by decide⟩

/-- C2: `computeStatus` returns `error` exactly when both resolved
versions are undefined or the requirement has no derivable floor; a
requirement with only an upper bound such as `<2.0.0` has a null
`minSatisfying` and classifies as `error`. -/
theorem computeStatus_error_iff :
    (∀ (r : VersionRange) (ls l : Option Version),
      computeStatus r ls l = .error
        ↔ (ls = none ∧ l = none) ∨ getMinVersionFromRange r = none)
    ∧ (parseVersionRange "<2.0.0").map getMinVersionFromRange = some none
    ∧ (parseVersionRange "<2.0.0").map
        (fun r => computeStatus r (some ⟨1, 0, 0, []⟩) (some ⟨1, 0, 0, []⟩))
        = some .error := by
  refine ⟨fun r ls l => ?_, by decide, by decide⟩
  cases ls with
  | none =>
    cases l with
    | none => simp [computeStatus]
    | some x =>
      show statusAgainst r x = .error ↔ _
      unfold statusAgainst
      cases hm : getMinVersionFromRange r with
      | none => simp
      | some c => simp [compareVersionDiff_ne_error]
  | some s =>
    cases l with
    | none =>
      show statusAgainst r s = .error ↔ _
      unfold statusAgainst
      cases hm : getMinVersionFromRange r with
      | none => simp
      | some c => simp [compareVersionDiff_ne_error]
    | some x =>
      show statusAgainst r s = .error ↔ _
      unfold statusAgainst
      cases hm : getMinVersionFromRange r with
      | none => simp
      | some c => simp [compareVersionDiff_ne_error]

/-- C3: `compareVersionDiff` never reports negative staleness — a version
compared with itself is `latest`, and whenever the current version is at
least the target under semantic-version precedence the verdict is
`latest`. -/
theorem compareVersionDiff_never_negative :
    (∀ x : Version, compareVersionDiff x x = .latest)
    ∧ ∀ current target : Version, target.le current →
        compareVersionDiff current target = .latest := by
  constructor
  · intro x
    simp [compareVersionDiff, Version.cmp_self]
  · intro c t h
    have hlt : c.cmp t ≠ .lt := by
      rw [Version.cmp_swap]
      cases hg : t.cmp c with
      | lt => simp [Ordering.swap]
      | eq => simp [Ordering.swap]
      | gt => exact absurd hg h
    simp [compareVersionDiff, hlt]

theorem compareVersionDiff_never_negative_witness :
    Version.le ⟨1, 2, 3, []⟩ ⟨2, 0, 0, []⟩
    ∧ compareVersionDiff ⟨1, 2, 3, []⟩ ⟨1, 2, 3, []⟩ = .latest
    ∧ compareVersionDiff ⟨2, 0, 0, []⟩ ⟨1, 2, 3, []⟩ = .latest :=
  ⟨by decide, compareVersionDiff_never_negative.1 ⟨1, 2, 3, []⟩,
    compareVersionDiff_never_negative.2 ⟨2, 0, 0, []⟩ ⟨1, 2, 3, []⟩ (by decide)⟩

/-- C4: a prerelease compared against the release with the same
major.minor.patch tuple classifies as `patch-behind`, e.g.
`1.0.0-alpha` against `1.0.0`. -/
theorem compareVersionDiff_prerelease_patch_behind
    (ma mi pa : Nat) (pre : List PreId) (h : pre ≠ []) :
    compareVersionDiff ⟨ma, mi, pa, pre⟩ ⟨ma, mi, pa, []⟩ = .patchBehind := by
  have hcmp : Version.cmp ⟨ma, mi, pa, pre⟩ ⟨ma, mi, pa, []⟩ = .lt := by
    unfold Version.cmp
    simp only [ncmp_self, Ordering.then]
    cases pre with
    | nil => exact absurd rfl h
    | cons a as => rfl
  simp [compareVersionDiff, hcmp]

theorem compareVersionDiff_prerelease_patch_behind_witness :
    ([PreId.alpha ['a', 'l', 'p', 'h', 'a']] : List PreId) ≠ []
    ∧ compareVersionDiff ⟨1, 0, 0, [.alpha ['a', 'l', 'p', 'h', 'a']]⟩ ⟨1, 0, 0, []⟩
        = .patchBehind :=
  ⟨by decide, compareVersionDiff_prerelease_patch_behind 1 0 0 _ (by decide)⟩

/-- C5: `getMinVersionFromRange` returns the version literally written as
the requirement's lower bound, from syntax alone — for every valid bare
version the floor is the version itself, for `^1.2.3` and `~1.2.3` it is
`1.2.3`, and for `>=1.0.0` (also conjoined with `<2.0.0`) it is
`1.0.0`. -/
theorem minSatisfying_literal_lower_bound :
    (∀ v : Version, (∀ id ∈ v.pre, validPreId id = true) →
      (parseRangeChars (renderVersion v)).map getMinVersionFromRange = some (some v))
    ∧ (parseVersionRange "^1.2.3").map getMinVersionFromRange = some (some ⟨1, 2, 3, []⟩)
    ∧ (parseVersionRange "~1.2.3").map getMinVersionFromRange = some (some ⟨1, 2, 3, []⟩)
    ∧ (parseVersionRange ">=1.0.0").map getMinVersionFromRange = some (some ⟨1, 0, 0, []⟩)
    ∧ (parseVersionRange ">=1.0.0, <2.0.0").map getMinVersionFromRange
        = some (some ⟨1, 0, 0, []⟩) := by
  refine ⟨fun v hv => ?_, by decide, by decide, by decide, by decide⟩
  rw [parseRangeChars_renderVersion v hv]
  rfl

theorem minSatisfying_literal_lower_bound_witness :
    (∀ id ∈ (⟨1, 0, 0, [.alpha ['r', 'c'], .num 2]⟩ : Version).pre, validPreId id = true)
    ∧ (parseRangeChars (renderVersion ⟨1, 0, 0, [.alpha ['r', 'c'], .num 2]⟩)).map
        getMinVersionFromRange = some (some ⟨1, 0, 0, [.alpha ['r', 'c'], .num 2]⟩) :=
  ⟨by decide, minSatisfying_literal_lower_bound.1 _ (by decide)⟩

/-- Published version set used by the membership tests. -/
def sampleVersions : List Version :=
  [⟨0, 0, 1, []⟩, ⟨0, 1, 0, []⟩, ⟨1, 0, 0, []⟩, ⟨1, 2, 3, []⟩, ⟨2, 0, 0, []⟩]

/-- C6: bare requirements use Cargo caret semantics — against
`{0.0.1, 0.1.0, 1.0.0, 1.2.3, 2.0.0}` the requirement `1.2.3` matches
only `1.2.3`, `0.0.1` only `0.0.1`, and `0.1.0` only `0.1.0`. -/
theorem caret_default_membership :
    (parseVersionRange "1.2.3").map
        (fun r => sampleVersions.filter (fun v => r.test v)) = some [⟨1, 2, 3, []⟩]
    ∧ (parseVersionRange "0.0.1").map
        (fun r => sampleVersions.filter (fun v => r.test v)) = some [⟨0, 0, 1, []⟩]
    ∧ (parseVersionRange "0.1.0").map
        (fun r => sampleVersions.filter (fun v => r.test v)) = some [⟨0, 1, 0, []⟩] :=
  ⟨by decide, by decide, by decide⟩

/-!
Interleaving model of the validation-pass orchestration for one manifest
path, embedded from `decorateWithProgress` / `cancelPendingDecoration`
(`src/extension/decorate.ts`) and the `decorate` function with
`AbortSignal` threading and the background advisory check
(`src/core/validate.test.ts`, second document).  Passes are identified by
naturals; atomic blocks are the synchronous JavaScript segments between
`await` points, and a schedule is any order of those blocks.
-/

/-- Program counter of a pass's main path: `decorateWithProgress` has
registered its controller (`started`), `decorate` is awaiting
`loadConfigForScope` (`configWait`), `findCargoLockPath`/`readCargoLockfile`
(`lockWait`), `validateCargoTomlContent` (`validateWait`), the `finally`
cleanup of `decorateWithProgress` is still due (`cleanupWait`), or the
pass is over (`finished`). -/
inductive MainPc : Type
  | idle
  | started
  | configWait
  | lockWait
  | validateWait
  | cleanupWait
  | finished
  deriving DecidableEq

/-- State of a pass's background advisory check: not yet started,
`checkAdvisories` in flight, or its continuation has run. -/
inductive AdvPc : Type
  | idle
  | pending
  | done
  deriving DecidableEq

/-- Observable events: a pass start (`decorateWithProgress` entry), the
primary `applyDecorations` call of a pass, and the advisory-merge
`applyDecorations` call of a pass. -/
inductive Ev : Type
  | started (p : Nat)
  | emitPrimary (p : Nat)
  | emitAdvisory (p : Nat)
  deriving DecidableEq

/-- Atomic blocks of the orchestration: `start p` is the synchronous
prefix of `decorateWithProgress`, `enterDecorate p` the `withProgress`
callback up to the first await of `decorate`, `afterConfig`/`afterLock`/
`finishMain` the resumptions after each awaited stage, `cleanup p` the
`finally` block of `decorateWithProgress`, `advisoryResult p` the
continuation of `checkAdvisories`, and `closeDoc` an environment step
closing or renaming the document. -/
inductive Act : Type
  | start (p : Nat)
  | enterDecorate (p : Nat)
  | afterConfig (p : Nat)
  | afterLock (p : Nat)
  | finishMain (p : Nat)
  | cleanup (p : Nat)
  | advisoryResult (p : Nat)
  | closeDoc
  deriving DecidableEq

/-- Global orchestration state for a single manifest path:
`pendingDecoration` and `pendingAdvisory` are the per-path entries of the
`pendingDecorations` and `pendingAdvisoryChecks` maps, `mainAborted` and
`advAborted` the aborted flags of each pass's two controllers, `linked`
whether the parent-signal abort listener onto the advisory controller has
been installed, `docValid` the document-identity guard, and `log` the
observable event history. -/
structure SysState : Type where
  mainPc : Nat → MainPc
  advPc : Nat → AdvPc
  mainAborted : Nat → Bool
  advAborted : Nat → Bool
  linked : Nat → Bool
  pendingDecoration : Option Nat
  pendingAdvisory : Option Nat
  docValid : Bool
  log : List Ev

/-- Pointwise update of a pass-indexed map. -/
def upd {α : Type} (f : Nat → α) (k : Nat) (v : α) : Nat → α :=
  fun n => if n = k then v else f n

/-- Effect of `cancelPendingDecoration` on the registered decoration
controller: abort it (propagating to the advisory controller through the
installed listener) and drop the map entry. -/
def abortHolder (s : SysState) : SysState :=
  match s.pendingDecoration with
  | none => s
  | some q =>
    { s with
      mainAborted := upd s.mainAborted q true
      advAborted := if s.linked q then upd s.advAborted q true else s.advAborted
      pendingDecoration := none }

/-- Effect of `cancelPendingAdvisoryCheck`: abort the registered advisory
controller and drop the map entry. -/
def abortAdvisoryHolder (s : SysState) : SysState :=
  match s.pendingAdvisory with
  | none => s
  | some q =>
    { s with advAborted := upd s.advAborted q true, pendingAdvisory := none }

/-- One atomic block of the orchestration.  `advFound` abstracts whether
`checkAdvisories` resolves available, error-free and nonempty. -/
def step (advFound : Bool) (s : SysState) (a : Act) : SysState :=
  match a with
  | .start p =>
    if s.mainPc p = .idle then
      { abortAdvisoryHolder (abortHolder s) with
        pendingDecoration := some p
        mainPc := upd s.mainPc p .started
        log := s.log ++ [.started p] }
    else s
  | .enterDecorate p =>
    if s.mainPc p = .started then
      if s.mainAborted p then { s with mainPc := upd s.mainPc p .cleanupWait }
      else { abortAdvisoryHolder s with mainPc := upd s.mainPc p .configWait }
    else s
  | .afterConfig p =>
    if s.mainPc p = .configWait then
      { s with
        mainPc := upd s.mainPc p (if s.mainAborted p then .cleanupWait else .lockWait) }
    else s
  | .afterLock p =>
    if s.mainPc p = .lockWait then
      { s with
        mainPc := upd s.mainPc p
          (if s.mainAborted p then .cleanupWait else .validateWait) }
    else s
  | .finishMain p =>
    if s.mainPc p = .validateWait then
      if s.mainAborted p then { s with mainPc := upd s.mainPc p .cleanupWait }
      else
        { s with
          mainPc := upd s.mainPc p .cleanupWait
          advPc := upd s.advPc p .pending
          pendingAdvisory := some p
          linked := upd s.linked p true
          log := s.log ++ [.emitPrimary p] }
    else s
  | .cleanup p =>
    if s.mainPc p = .cleanupWait then
      { s with mainPc := upd s.mainPc p .finished, pendingDecoration := none }
    else s
  | .advisoryResult p =>
    if s.advPc p = .pending then
      { s with
        advPc := upd s.advPc p .done
        log :=
          if !s.advAborted p && s.docValid && advFound then s.log ++ [.emitAdvisory p]
          else s.log
        pendingAdvisory :=
          if s.pendingAdvisory = some p then none else s.pendingAdvisory }
    else s
  | .closeDoc => { s with docValid := false }

/-- Initial orchestration state: no pass started, maps empty, document
valid, no events. -/
def initState : SysState :=
  ⟨fun _ => .idle, fun _ => .idle, fun _ => false, fun _ => false, fun _ => false,
    none, none, true, []⟩

/-- Run a schedule of atomic blocks from the initial state. -/
def run (advFound : Bool) (acts : List Act) : SysState :=
  acts.foldl (step advFound) initState

theorem upd_same {α : Type} (f : Nat → α) (k : Nat) (v : α) : upd f k v k = v := by
  simp [upd]

theorem upd_other {α : Type} (f : Nat → α) (k : Nat) (v : α) {n : Nat}
    (h : n ≠ k) : upd f k v n = f n := by
  simp [upd, h]

theorem abortHolder_mainPc (s : SysState) : (abortHolder s).mainPc = s.mainPc := by
  unfold abortHolder
  cases s.pendingDecoration <;> rfl

theorem abortHolder_advPc (s : SysState) : (abortHolder s).advPc = s.advPc := by
  unfold abortHolder
  cases s.pendingDecoration <;> rfl

theorem abortHolder_log (s : SysState) : (abortHolder s).log = s.log := by
  unfold abortHolder
  cases s.pendingDecoration <;> rfl

theorem abortHolder_docValid (s : SysState) :
    (abortHolder s).docValid = s.docValid := by
  unfold abortHolder
  cases s.pendingDecoration <;> rfl

theorem abortAdvisoryHolder_mainPc (s : SysState) :
    (abortAdvisoryHolder s).mainPc = s.mainPc := by
  unfold abortAdvisoryHolder
  cases s.pendingAdvisory <;> rfl

theorem abortAdvisoryHolder_advPc (s : SysState) :
    (abortAdvisoryHolder s).advPc = s.advPc := by
  unfold abortAdvisoryHolder
  cases s.pendingAdvisory <;> rfl

theorem abortAdvisoryHolder_log (s : SysState) :
    (abortAdvisoryHolder s).log = s.log := by
  unfold abortAdvisoryHolder
  cases s.pendingAdvisory <;> rfl

theorem abortAdvisoryHolder_docValid (s : SysState) :
    (abortAdvisoryHolder s).docValid = s.docValid := by
  unfold abortAdvisoryHolder
  cases s.pendingAdvisory <;> rfl

theorem sublist_snoc {l L : List Ev} (e : Ev) (h : l.Sublist L) :
    l.Sublist (L ++ [e]) :=
  h.trans (List.sublist_append_left L [e])

/-- State invariant tying a pass's emissions to its progress: a pass that
has not reached its final main stages has emitted nothing and has no
advisory in flight; an advisory in flight means the primary result is
already in the log; and any advisory merge in the log is preceded by the
same pass's primary emission. -/
def Inv (s : SysState) : Prop := ∀ p : Nat,
  ((s.mainPc p ≠ .cleanupWait ∧ s.mainPc p ≠ .finished) →
    s.advPc p = .idle ∧ Ev.emitPrimary p ∉ s.log)
  ∧ (s.advPc p = .idle → Ev.emitAdvisory p ∉ s.log)
  ∧ (s.advPc p = .pending → Ev.emitPrimary p ∈ s.log ∧ Ev.emitAdvisory p ∉ s.log)
  ∧ (Ev.emitAdvisory p ∈ s.log →
      [Ev.emitPrimary p, Ev.emitAdvisory p].Sublist s.log)

theorem inv_initState : Inv initState := by
  intro p
  refine ⟨fun _ => ⟨rfl, by simp [initState]⟩, fun _ => by simp [initState],
    fun h => ?_, fun h => ?_⟩
  · simp [initState] at h
  · simp [initState] at h

theorem inv_step (advFound : Bool) (s : SysState) (a : Act) (hs : Inv s) :
    Inv (step advFound s a) := by
  cases a with
  | start q =>
    by_cases hq : s.mainPc q = .idle
    · have hstep : step advFound s (.start q)
          = { abortAdvisoryHolder (abortHolder s) with
              pendingDecoration := some q
              mainPc := upd s.mainPc q .started
              log := s.log ++ [.started q] } := by
        simp [step, hq]
      rw [hstep]
      intro p
      obtain ⟨h1, h2, h3, h4⟩ := hs p
      dsimp only
      rw [abortAdvisoryHolder_advPc, abortHolder_advPc]
      refine ⟨?_, ?_, ?_, ?_⟩
      · intro hnf
        by_cases hpq : p = q
        · subst hpq
          have h := h1 ⟨by simp [hq], by simp [hq]⟩
          exact ⟨h.1, by simp [h.2]⟩
        · rw [upd_other _ _ _ hpq] at hnf
          have h := h1 hnf
          exact ⟨h.1, by simp [h.2]⟩
      · intro hid
        have h := h2 hid
        simp [h]
      · intro hpend
        have h := h3 hpend
        exact ⟨by simp [h.1], by simp [h.2]⟩
      · intro hmem
        have hmem' : Ev.emitAdvisory p ∈ s.log := by simpa using hmem
        exact sublist_snoc _ (h4 hmem')
    · simp only [step, if_neg hq]
      exact hs
  | enterDecorate q =>
    by_cases hq : s.mainPc q = .started
    · by_cases hab : s.mainAborted q = true
      · have hstep : step advFound s (.enterDecorate q)
            = { s with mainPc := upd s.mainPc q .cleanupWait } := by
          simp [step, hq, hab]
        rw [hstep]
        intro p
        obtain ⟨h1, h2, h3, h4⟩ := hs p
        dsimp only
        refine ⟨?_, h2, h3, h4⟩
        intro hnf
        by_cases hpq : p = q
        · subst hpq
          rw [upd_same] at hnf
          exact absurd rfl hnf.1
        · rw [upd_other _ _ _ hpq] at hnf
          exact h1 hnf
      · have hab' : s.mainAborted q = false := Bool.eq_false_iff.mpr hab
        have hstep : step advFound s (.enterDecorate q)
            = { abortAdvisoryHolder s with mainPc := upd s.mainPc q .configWait } := by
          simp [step, hq, hab']
        rw [hstep]
        intro p
        obtain ⟨h1, h2, h3, h4⟩ := hs p
        dsimp only
        rw [abortAdvisoryHolder_advPc, abortAdvisoryHolder_log]
        refine ⟨?_, h2, h3, h4⟩
        intro hnf
        by_cases hpq : p = q
        · subst hpq
          exact h1 ⟨by simp [hq], by simp [hq]⟩
        · rw [upd_other _ _ _ hpq] at hnf
          exact h1 hnf
    · simp only [step, if_neg hq]
      exact hs
  | afterConfig q =>
    by_cases hq : s.mainPc q = .configWait
    · have hstep : step advFound s (.afterConfig q)
          = { s with mainPc := upd s.mainPc q (if s.mainAborted q then MainPc.cleanupWait else MainPc.lockWait) } := by
        simp [step, hq]
      rw [hstep]
      intro p
      obtain ⟨h1, h2, h3, h4⟩ := hs p
      dsimp only
      refine ⟨?_, h2, h3, h4⟩
      intro hnf
      by_cases hpq : p = q
      · subst hpq
        exact h1 ⟨by simp [hq], by simp [hq]⟩
      · rw [upd_other _ _ _ hpq] at hnf
        exact h1 hnf
    · simp only [step, if_neg hq]
      exact hs
  | afterLock q =>
    by_cases hq : s.mainPc q = .lockWait
    · have hstep : step advFound s (.afterLock q)
          = { s with mainPc := upd s.mainPc q (if s.mainAborted q then MainPc.cleanupWait else MainPc.validateWait) } := by
        simp [step, hq]
      rw [hstep]
      intro p
      obtain ⟨h1, h2, h3, h4⟩ := hs p
      dsimp only
      refine ⟨?_, h2, h3, h4⟩
      intro hnf
      by_cases hpq : p = q
      · subst hpq
        exact h1 ⟨by simp [hq], by simp [hq]⟩
      · rw [upd_other _ _ _ hpq] at hnf
        exact h1 hnf
    · simp only [step, if_neg hq]
      exact hs
  | finishMain q =>
    by_cases hq : s.mainPc q = .validateWait
    · by_cases hab : s.mainAborted q = true
      · have hstep : step advFound s (.finishMain q)
            = { s with mainPc := upd s.mainPc q .cleanupWait } := by
          simp [step, hq, hab]
        rw [hstep]
        intro p
        obtain ⟨h1, h2, h3, h4⟩ := hs p
        dsimp only
        refine ⟨?_, h2, h3, h4⟩
        intro hnf
        by_cases hpq : p = q
        · subst hpq
          rw [upd_same] at hnf
          exact absurd rfl hnf.1
        · rw [upd_other _ _ _ hpq] at hnf
          exact h1 hnf
      · have hab' : s.mainAborted q = false := Bool.eq_false_iff.mpr hab
        have hstep : step advFound s (.finishMain q)
            = { s with
                mainPc := upd s.mainPc q .cleanupWait
                advPc := upd s.advPc q .pending
                pendingAdvisory := some q
                linked := upd s.linked q true
                log := s.log ++ [.emitPrimary q] } := by
          simp [step, hq, hab']
        rw [hstep]
        have hq1 := (hs q).1 ⟨by simp [hq], by simp [hq]⟩
        have hqadv : Ev.emitAdvisory q ∉ s.log := (hs q).2.1 hq1.1
        intro p
        obtain ⟨h1, h2, h3, h4⟩ := hs p
        dsimp only
        refine ⟨?_, ?_, ?_, ?_⟩
        · intro hnf
          by_cases hpq : p = q
          · subst hpq
            rw [upd_same] at hnf
            exact absurd rfl hnf.1
          · rw [upd_other _ _ _ hpq] at hnf
            obtain ⟨hidle, hnp⟩ := h1 hnf
            rw [upd_other _ _ _ hpq]
            refine ⟨hidle, ?_⟩
            simp [hnp, hpq]
        · intro hid
          by_cases hpq : p = q
          · subst hpq
            rw [upd_same] at hid
            simp at hid
          · rw [upd_other _ _ _ hpq] at hid
            have h := h2 hid
            simp [h]
        · intro hpend
          by_cases hpq : p = q
          · subst hpq
            refine ⟨by simp, by simp [hqadv]⟩
          · rw [upd_other _ _ _ hpq] at hpend
            obtain ⟨hin, hnin⟩ := h3 hpend
            exact ⟨by simp [hin], by simp [hnin]⟩
        · intro hmem
          have hmem' : Ev.emitAdvisory p ∈ s.log := by simpa using hmem
          exact sublist_snoc _ (h4 hmem')
    · simp only [step, if_neg hq]
      exact hs
  | cleanup q =>
    by_cases hq : s.mainPc q = .cleanupWait
    · have hstep : step advFound s (.cleanup q)
          = { s with mainPc := upd s.mainPc q MainPc.finished, pendingDecoration := none } := by
        simp [step, hq]
      rw [hstep]
      intro p
      obtain ⟨h1, h2, h3, h4⟩ := hs p
      dsimp only
      refine ⟨?_, h2, h3, h4⟩
      intro hnf
      by_cases hpq : p = q
      · subst hpq
        rw [upd_same] at hnf
        exact absurd rfl hnf.2
      · rw [upd_other _ _ _ hpq] at hnf
        exact h1 hnf
    · simp only [step, if_neg hq]
      exact hs
  | advisoryResult q =>
    by_cases hq : s.advPc q = .pending
    · have hstep : step advFound s (.advisoryResult q)
          = { s with
              advPc := upd s.advPc q .done
              log :=
                if !s.advAborted q && s.docValid && advFound then
                  s.log ++ [.emitAdvisory q]
                else s.log
              pendingAdvisory :=
                if s.pendingAdvisory = some q then none else s.pendingAdvisory } := by
        simp [step, hq]
      rw [hstep]
      have hq3 := (hs q).2.2.1 hq
      by_cases hcond : (!s.advAborted q && s.docValid && advFound) = true
      · rw [if_pos hcond]
        intro p
        obtain ⟨h1, h2, h3, h4⟩ := hs p
        dsimp only
        refine ⟨?_, ?_, ?_, ?_⟩
        · intro hnf
          by_cases hpq : p = q
          · subst hpq
            obtain ⟨hidle, _⟩ := h1 hnf
            rw [hq] at hidle
            simp at hidle
          · obtain ⟨hidle, hnp⟩ := h1 hnf
            rw [upd_other _ _ _ hpq]
            exact ⟨hidle, by simp [hnp]⟩
        · intro hid
          by_cases hpq : p = q
          · subst hpq
            rw [upd_same] at hid
            simp at hid
          · rw [upd_other _ _ _ hpq] at hid
            have h := h2 hid
            simp [h, hpq]
        · intro hpend
          by_cases hpq : p = q
          · subst hpq
            rw [upd_same] at hpend
            simp at hpend
          · rw [upd_other _ _ _ hpq] at hpend
            obtain ⟨hin, hnin⟩ := h3 hpend
            exact ⟨by simp [hin], by simp [hnin, hpq]⟩
        · intro hmem
          by_cases hpq : p = q
          · subst hpq
            have hone : [Ev.emitPrimary p].Sublist s.log :=
              List.singleton_sublist.mpr hq3.1
            have h := List.Sublist.append hone (List.Sublist.refl [Ev.emitAdvisory p])
            simpa using h
          · have hmem' : Ev.emitAdvisory p ∈ s.log := by
              rcases List.mem_append.mp hmem with h | h
              · exact h
              · simp at h
                exact absurd h hpq
            exact sublist_snoc _ (h4 hmem')
      · rw [if_neg hcond]
        intro p
        obtain ⟨h1, h2, h3, h4⟩ := hs p
        dsimp only
        refine ⟨?_, ?_, ?_, h4⟩
        · intro hnf
          by_cases hpq : p = q
          · subst hpq
            obtain ⟨hidle, _⟩ := h1 hnf
            rw [hq] at hidle
            simp at hidle
          · rw [upd_other _ _ _ hpq]
            exact h1 hnf
        · intro hid
          by_cases hpq : p = q
          · subst hpq
            rw [upd_same] at hid
            simp at hid
          · rw [upd_other _ _ _ hpq] at hid
            exact h2 hid
        · intro hpend
          by_cases hpq : p = q
          · subst hpq
            rw [upd_same] at hpend
            simp at hpend
          · rw [upd_other _ _ _ hpq] at hpend
            exact h3 hpend
    · simp only [step, if_neg hq]
      exact hs
  | closeDoc =>
    intro p
    exact hs p

theorem inv_run (advFound : Bool) (acts : List Act) : Inv (run advFound acts) := by
  unfold run
  have h : ∀ s, Inv s → Inv (acts.foldl (step advFound) s) := by
    induction acts with
    | nil => intro s hs; exact hs
    | cons a acts ih =>
      intro s hs
      exact ih _ (inv_step advFound s a hs)
  exact h initState inv_initState

/-- Schedule exhibiting the cancellation clobber: pass 1 is superseded by
pass 2; pass 1's aborted body finishes and its unconditional `finally`
cleanup (`pendingDecorations.delete(fileName)`) deletes pass 2's
registration; pass 3 then starts, finds no registered controller, and so
does not cancel the in-flight pass 2, which afterwards emits its
result. -/
def clobberSchedule : List Act :=
  [.start 1, .enterDecorate 1, .start 2, .afterConfig 1, .cleanup 1,
    .enterDecorate 2, .afterConfig 2, .afterLock 2, .start 3, .finishMain 2]

/-- C7: starting a new validation pass is claimed to always cancel the
pass in flight for the same path, so that a superseded pass never emits
after the newer one has started.  Evaluating the orchestration on
`clobberSchedule` refutes this on the code: right after pass 3's start
(the 9-block prefix) the in-flight pass 2 is still at `validateWait` with
its signal not aborted, and the full run's log shows pass 2's primary
emission after pass 3's start event. -/
theorem decorate_superseded_pass_emits_after_newer_start :
    (run false clobberSchedule).log
      = [.started 1, .started 2, .started 3, .emitPrimary 2]
    ∧ (run false (clobberSchedule.take 9)).mainPc 2 = .validateWait
    ∧ (run false (clobberSchedule.take 9)).mainAborted 2 = false :=
  ⟨by decide, by decide, by decide⟩

/-- C8: in every schedule, an advisory merge of a pass only ever appears
in the log after that pass's primary decoration emission, and the primary
verdicts are emitted on schedules where no advisory result ever
arrives. -/
theorem advisory_check_never_blocks_primary :
    (∀ (advFound : Bool) (acts : List Act) (p : Nat),
      Ev.emitAdvisory p ∈ (run advFound acts).log →
        [Ev.emitPrimary p, Ev.emitAdvisory p].Sublist (run advFound acts).log)
    ∧ (run false [.start 1, .enterDecorate 1, .afterConfig 1, .afterLock 1,
        .finishMain 1]).log = [.started 1, .emitPrimary 1] :=
  ⟨fun advFound acts p hmem => ((inv_run advFound acts) p).2.2.2 hmem, by decide⟩

/-- Schedule where the advisory result of pass 1 arrives and merges. -/
def mergedAdvisorySchedule : List Act :=
  [.start 1, .enterDecorate 1, .afterConfig 1, .afterLock 1, .finishMain 1,
    .advisoryResult 1]

theorem advisory_check_never_blocks_primary_witness :
    Ev.emitAdvisory 1 ∈ (run true mergedAdvisorySchedule).log
    ∧ [Ev.emitPrimary 1, Ev.emitAdvisory 1].Sublist
        (run true mergedAdvisorySchedule).log :=
  ⟨by decide,
    advisory_check_never_blocks_primary.1 true mergedAdvisorySchedule 1 (by decide)⟩

theorem abortHolder_advAborted_mono (s : SysState) (p : Nat)
    (h : s.advAborted p = true) : (abortHolder s).advAborted p = true := by
  unfold abortHolder
  cases s.pendingDecoration with
  | none => exact h
  | some q =>
    dsimp only
    by_cases hl : s.linked q = true
    · rw [if_pos hl]
      by_cases hpq : p = q
      · subst hpq
        rw [upd_same]
      · rw [upd_other _ _ _ hpq]
        exact h
    · rw [if_neg hl]
      exact h

theorem abortAdvisoryHolder_advAborted_mono (s : SysState) (p : Nat)
    (h : s.advAborted p = true) : (abortAdvisoryHolder s).advAborted p = true := by
  unfold abortAdvisoryHolder
  cases s.pendingAdvisory with
  | none => exact h
  | some q =>
    dsimp only
    by_cases hpq : p = q
    · subst hpq
      rw [upd_same]
    · rw [upd_other _ _ _ hpq]
      exact h

theorem step_advAborted_mono (advFound : Bool) (s : SysState) (a : Act) (p : Nat)
    (h : s.advAborted p = true) : (step advFound s a).advAborted p = true := by
  cases a with
  | start q =>
    by_cases hq : s.mainPc q = .idle
    · simp only [step, if_pos hq]
      exact abortAdvisoryHolder_advAborted_mono _ p (abortHolder_advAborted_mono s p h)
    · simpa [step, hq] using h
  | enterDecorate q =>
    by_cases hq : s.mainPc q = .started
    · by_cases hab : s.mainAborted q = true
      · simpa [step, hq, hab] using h
      · have hab' : s.mainAborted q = false := Bool.eq_false_iff.mpr hab
        have hstep : step advFound s (.enterDecorate q)
            = { abortAdvisoryHolder s with mainPc := upd s.mainPc q .configWait } := by
          simp [step, hq, hab']
        rw [hstep]
        exact abortAdvisoryHolder_advAborted_mono s p h
    · simpa [step, hq] using h
  | afterConfig q =>
    by_cases hq : s.mainPc q = .configWait <;> simpa [step, hq] using h
  | afterLock q =>
    by_cases hq : s.mainPc q = .lockWait <;> simpa [step, hq] using h
  | finishMain q =>
    by_cases hq : s.mainPc q = .validateWait
    · by_cases hab : s.mainAborted q = true
      · simpa [step, hq, hab] using h
      · have hab' : s.mainAborted q = false := Bool.eq_false_iff.mpr hab
        simpa [step, hq, hab'] using h
    · simpa [step, hq] using h
  | cleanup q =>
    by_cases hq : s.mainPc q = .cleanupWait <;> simpa [step, hq] using h
  | advisoryResult q =>
    by_cases hq : s.advPc q = .pending <;> simpa [step, hq] using h
  | closeDoc => simpa [step] using h

theorem step_docValid_mono (advFound : Bool) (s : SysState) (a : Act)
    (h : s.docValid = false) : (step advFound s a).docValid = false := by
  cases a with
  | start q =>
    by_cases hq : s.mainPc q = .idle
    · simp only [step, if_pos hq]
      rw [abortAdvisoryHolder_docValid, abortHolder_docValid]
      exact h
    · simpa [step, hq] using h
  | enterDecorate q =>
    by_cases hq : s.mainPc q = .started
    · by_cases hab : s.mainAborted q = true
      · simpa [step, hq, hab] using h
      · have hab' : s.mainAborted q = false := Bool.eq_false_iff.mpr hab
        have hstep : step advFound s (.enterDecorate q)
            = { abortAdvisoryHolder s with mainPc := upd s.mainPc q .configWait } := by
          simp [step, hq, hab']
        rw [hstep]
        show (abortAdvisoryHolder s).docValid = false
        rw [abortAdvisoryHolder_docValid]
        exact h
    · simpa [step, hq] using h
  | afterConfig q =>
    by_cases hq : s.mainPc q = .configWait <;> simpa [step, hq] using h
  | afterLock q =>
    by_cases hq : s.mainPc q = .lockWait <;> simpa [step, hq] using h
  | finishMain q =>
    by_cases hq : s.mainPc q = .validateWait
    · by_cases hab : s.mainAborted q = true
      · simpa [step, hq, hab] using h
      · have hab' : s.mainAborted q = false := Bool.eq_false_iff.mpr hab
        simpa [step, hq, hab'] using h
    · simpa [step, hq] using h
  | cleanup q =>
    by_cases hq : s.mainPc q = .cleanupWait <;> simpa [step, hq] using h
  | advisoryResult q =>
    by_cases hq : s.advPc q = .pending <;> simpa [step, hq] using h
  | closeDoc => simp [step]

/-- A late advisory whose check was cancelled, or whose document changed
identity, never merges: no advisory emission for the pass is in the log,
and the blocking guard is permanent. -/
def NoLateMerge (p : Nat) (s : SysState) : Prop :=
  Ev.emitAdvisory p ∉ s.log ∧ (s.advAborted p = true ∨ s.docValid = false)

theorem noLateMerge_step (advFound : Bool) (s : SysState) (a : Act) (p : Nat)
    (h : NoLateMerge p s) : NoLateMerge p (step advFound s a) := by
  obtain ⟨hnm, hguard⟩ := h
  refine ⟨?_, ?_⟩
  · cases a with
    | start q =>
      by_cases hq : s.mainPc q = .idle
      · simp only [step, if_pos hq]
        simp [hnm]
      · simpa [step, hq] using hnm
    | enterDecorate q =>
      by_cases hq : s.mainPc q = .started
      · by_cases hab : s.mainAborted q = true
        · simpa [step, hq, hab] using hnm
        · have hab' : s.mainAborted q = false := Bool.eq_false_iff.mpr hab
          have hstep : step advFound s (.enterDecorate q)
              = { abortAdvisoryHolder s with mainPc := upd s.mainPc q .configWait } := by
            simp [step, hq, hab']
          rw [hstep]
          show Ev.emitAdvisory p ∉ (abortAdvisoryHolder s).log
          rw [abortAdvisoryHolder_log]
          exact hnm
      · simpa [step, hq] using hnm
    | afterConfig q =>
      by_cases hq : s.mainPc q = .configWait <;> simpa [step, hq] using hnm
    | afterLock q =>
      by_cases hq : s.mainPc q = .lockWait <;> simpa [step, hq] using hnm
    | finishMain q =>
      by_cases hq : s.mainPc q = .validateWait
      · by_cases hab : s.mainAborted q = true
        · simpa [step, hq, hab] using hnm
        · have hab' : s.mainAborted q = false := Bool.eq_false_iff.mpr hab
          simp only [step, if_pos hq, hab']
          simp [hnm]
      · simpa [step, hq] using hnm
    | cleanup q =>
      by_cases hq : s.mainPc q = .cleanupWait <;> simpa [step, hq] using hnm
    | advisoryResult q =>
      by_cases hq : s.advPc q = .pending
      · have hstep : step advFound s (.advisoryResult q)
            = { s with
                advPc := upd s.advPc q .done
                log :=
                  if !s.advAborted q && s.docValid && advFound then
                    s.log ++ [.emitAdvisory q]
                  else s.log
                pendingAdvisory :=
                  if s.pendingAdvisory = some q then none
                  else s.pendingAdvisory } := by
          simp [step, hq]
        rw [hstep]
        dsimp only
        by_cases hpq : p = q
        · subst hpq
          have hcond : (!s.advAborted p && s.docValid && advFound) = false := by
            rcases hguard with hg | hg <;> simp [hg]
          rw [hcond]
          simpa using hnm
        · by_cases hcond : (!s.advAborted q && s.docValid && advFound) = true
          · rw [if_pos hcond]
            simp [hnm, hpq]
          · rw [if_neg hcond]
            exact hnm
      · simpa [step, hq] using hnm
    | closeDoc => simpa [step] using hnm
  · rcases hguard with hg | hg
    · exact Or.inl (step_advAborted_mono advFound s a p hg)
    · exact Or.inr (step_docValid_mono advFound s a hg)

theorem noLateMerge_fold (advFound : Bool) (acts : List Act) :
    ∀ (s : SysState) (p : Nat), NoLateMerge p s →
      NoLateMerge p (acts.foldl (step advFound) s) := by
  induction acts with
  | nil => intro s p h; exact h
  | cons a acts ih =>
    intro s p h
    exact ih _ p (noLateMerge_step advFound s a p h)

/-- C9: a late-arriving advisory result merges only while the check is
uncancelled and the document identity is unchanged — once the advisory
check of a pending pass is aborted, or the document has changed, no
advisory merge for that pass ever appears, under any continuation of the
schedule. -/
theorem advisory_merge_only_if_current (advFound : Bool)
    (acts1 acts2 : List Act) (p : Nat)
    (hpend : (run advFound acts1).advPc p = .pending)
    (hguard : (run advFound acts1).advAborted p = true
      ∨ (run advFound acts1).docValid = false) :
    Ev.emitAdvisory p ∉ (run advFound (acts1 ++ acts2)).log := by
  have hnm : Ev.emitAdvisory p ∉ (run advFound acts1).log :=
    (((inv_run advFound acts1) p).2.2.1 hpend).2
  have hrun : run advFound (acts1 ++ acts2)
      = acts2.foldl (step advFound) (run advFound acts1) := by
    simp [run, List.foldl_append]
  rw [hrun]
  exact (noLateMerge_fold advFound acts2 (run advFound acts1) p ⟨hnm, hguard⟩).1

/-- Schedule in which pass 1's advisory check is in flight when pass 2
starts and cancels it. -/
def cancelledAdvisorySchedule : List Act :=
  [.start 1, .enterDecorate 1, .afterConfig 1, .afterLock 1, .finishMain 1,
    .start 2]

theorem advisory_merge_only_if_current_witness :
    (run true cancelledAdvisorySchedule).advPc 1 = .pending
    ∧ (run true cancelledAdvisorySchedule).advAborted 1 = true
    ∧ Ev.emitAdvisory 1 ∉
        (run true (cancelledAdvisorySchedule ++ [.advisoryResult 1])).log :=
  ⟨by decide, by decide,
    advisory_merge_only_if_current true cancelledAdvisorySchedule
      [.advisoryResult 1] 1 (by decide) (Or.inl (by decide))⟩

/-!
Pure model of `applyDecorations` (`src/core/validate.test.ts`, second
document, also `src/extension/decorate.ts` lines 156-159): group results
by status, then call `editor.setDecorations` once per status in
`ALL_STATUSES`, with the empty list for statuses that collected nothing.
-/

/-- Validation result as consumed by the decoration layer: the anchoring
source line and the classification.  The status stands for the one
returned by `formatDependencyResult`, which the spec defines as the
result's own `status` field (the formatting core is not under src/). -/
structure DepResult : Type where
  line : Nat
  status : DependencyStatus
  deriving DecidableEq

/-- The five statuses, from `ALL_STATUSES` in the source. -/
def ALL_STATUSES : List DependencyStatus :=
  [.latest, .patchBehind, .minorBehind, .majorBehind, .error]

/-- Decoration options produced for one dependency by
`buildDecorationOptions`: its status bucket and its line anchor. -/
def buildDecorationOptions (r : DepResult) : DependencyStatus × Nat :=
  (r.status, r.line)

/-- Pointwise update of a status-indexed bucket map. -/
def updStatus (f : DependencyStatus → List Nat) (k : DependencyStatus)
    (v : List Nat) : DependencyStatus → List Nat :=
  fun st => if st = k then v else f st

/-- Grouping loop of `applyDecorations`: starting from empty buckets, push
each dependency's options into the bucket of its status. -/
def groupByStatus (deps : List DepResult) : DependencyStatus → List Nat :=
  deps.foldl
    (fun acc d =>
      updStatus acc (buildDecorationOptions d).1
        (acc (buildDecorationOptions d).1 ++ [(buildDecorationOptions d).2]))
    (fun _ => [])

/-- The sequence of `setDecorations` calls issued by `applyDecorations`:
one call per status of `ALL_STATUSES`, carrying that status's bucket. -/
def applyDecorations (deps : List DepResult) :
    List (DependencyStatus × List Nat) :=
  ALL_STATUSES.map fun st => (st, groupByStatus deps st)

/-- Editor state transition of one `setDecorations` call: the decoration
list of that decoration type is replaced outright. -/
def setDecorations (state : DependencyStatus → List Nat)
    (call : DependencyStatus × List Nat) : DependencyStatus → List Nat :=
  updStatus state call.1 call.2

/-- Editor state after a sequence of `setDecorations` calls. -/
def runSetDecorations (state : DependencyStatus → List Nat)
    (calls : List (DependencyStatus × List Nat)) : DependencyStatus → List Nat :=
  calls.foldl setDecorations state

theorem groupByStatus_go (deps : List DepResult) :
    ∀ (acc : DependencyStatus → List Nat) (st : DependencyStatus),
      (deps.foldl
        (fun acc d =>
          updStatus acc (buildDecorationOptions d).1
            (acc (buildDecorationOptions d).1 ++ [(buildDecorationOptions d).2]))
        acc) st
      = acc st ++ (deps.filter (fun d => decide (d.status = st))).map DepResult.line := by
  induction deps with
  | nil =>
    intro acc st
    simp
  | cons d ds ih =>
    intro acc st
    simp only [List.foldl_cons]
    rw [ih]
    by_cases hd : d.status = st
    · simp [List.filter_cons, hd, updStatus, buildDecorationOptions]
    · have hd' : ¬ st = d.status := fun h => hd h.symm
      simp [List.filter_cons, hd, hd', updStatus, buildDecorationOptions]

theorem groupByStatus_filter (deps : List DepResult) (st : DependencyStatus) :
    groupByStatus deps st
      = (deps.filter (fun d => decide (d.status = st))).map DepResult.line := by
  unfold groupByStatus
  rw [groupByStatus_go]
  simp

/-- C10: every decoration application issues exactly one `setDecorations`
call per status of `ALL_STATUSES`, carrying exactly the current results
of that status (the empty list when none), so the editor state after the
calls equals the current pass's per-status results regardless of any
earlier decorations. -/
theorem applyDecorations_sets_all_statuses (deps : List DepResult)
    (prev : DependencyStatus → List Nat) (st : DependencyStatus) :
    applyDecorations deps
        = ALL_STATUSES.map (fun s =>
            (s, (deps.filter (fun d => decide (d.status = s))).map DepResult.line))
    ∧ (applyDecorations deps).map Prod.fst = ALL_STATUSES
    ∧ runSetDecorations prev (applyDecorations deps) st
        = (deps.filter (fun d => decide (d.status = st))).map DepResult.line := by
  refine ⟨?_, ?_, ?_⟩
  · unfold applyDecorations
    simp [groupByStatus_filter]
  · show (ALL_STATUSES.map fun st => (st, groupByStatus deps st)).map Prod.fst
        = ALL_STATUSES
    unfold ALL_STATUSES
    simp
  · unfold runSetDecorations applyDecorations ALL_STATUSES
    simp only [List.map_cons, List.map_nil, List.foldl_cons, List.foldl_nil]
    cases st <;> simp [setDecorations, updStatus, groupByStatus_filter]

end ElderCrates
